import Mathlib

/-!
Verification of the derushing pipeline of `src/app/derusher.py`
(class `DerushWorker`), via a shallow embedding.

Times and amplitudes are modelled by rationals (`ℚ`); audio buffers by
`List ℚ`.  Python integer arithmetic (`//`, `int(0.1 * sample_rate)`)
is modelled by natural-number division.  Fallible operations return
`Option`/`Except`.  Filesystem and subprocess effects of `run` are
modelled by an oracle environment (`Env`) and an explicit event trace.

The arithmetic on `ℚ` is performed through the kernel-computable wrappers
`qadd`, `qneg`, `qsub`, `qmul`, `qdivNat` below, proved equal to the
ordinary field operations (`qadd_eq`, …), so that every definition can be
evaluated on concrete inputs by `decide`.
-/

deriving instance DecidableEq for Except

namespace Derusher

/-- Addition on `ℚ` by explicit numerator/denominator computation. -/
def qadd (a b : ℚ) : ℚ := mkRat (a.num * (b.den : ℤ) + b.num * (a.den : ℤ)) (a.den * b.den)

/-- Negation on `ℚ` by explicit numerator computation. -/
def qneg (a : ℚ) : ℚ := mkRat (-a.num) a.den

/-- Subtraction on `ℚ` by explicit numerator/denominator computation. -/
def qsub (a b : ℚ) : ℚ := qadd a (qneg b)

/-- Multiplication on `ℚ` by explicit numerator/denominator computation. -/
def qmul (a b : ℚ) : ℚ := mkRat (a.num * b.num) (a.den * b.den)

/-- Division of a rational by a natural number. -/
def qdivNat (a : ℚ) (n : ℕ) : ℚ := mkRat a.num (a.den * n)

theorem mkRat_eq_div (n : ℤ) (d : ℕ) : mkRat n d = (n : ℚ) / (d : ℚ) :=
  Rat.mkRat_eq_div n d

@[simp] theorem qadd_eq (a b : ℚ) : qadd a b = a + b := by
  have ha : ((a.den : ℚ)) ≠ 0 := by exact_mod_cast a.den_nz
  have hb : ((b.den : ℚ)) ≠ 0 := by exact_mod_cast b.den_nz
  rw [qadd, mkRat_eq_div]
  push_cast
  conv_rhs => rw [← Rat.num_div_den a, ← Rat.num_div_den b]
  field_simp

@[simp] theorem qneg_eq (a : ℚ) : qneg a = -a := by
  rw [qneg, mkRat_eq_div]
  push_cast
  rw [neg_div, Rat.num_div_den]

@[simp] theorem qsub_eq (a b : ℚ) : qsub a b = a - b := by
  rw [qsub, qadd_eq, qneg_eq, sub_eq_add_neg]

@[simp] theorem qmul_eq (a b : ℚ) : qmul a b = a * b := by
  rw [qmul, mkRat_eq_div]
  push_cast
  conv_rhs => rw [← Rat.num_div_den a, ← Rat.num_div_den b]
  rw [div_mul_div_comm]

@[simp] theorem qdivNat_eq (a : ℚ) (n : ℕ) : qdivNat a n = a / (n : ℚ) := by
  rw [qdivNat, mkRat_eq_div]
  push_cast
  conv_rhs => rw [← Rat.num_div_den a]
  rw [div_div]

/-- Sum of a list of rationals through `qadd`. -/
def qsum (l : List ℚ) : ℚ := l.foldr qadd 0

@[simp] theorem qsum_eq (l : List ℚ) : qsum l = l.sum := by
  induction l with
  | nil => rfl
  | cons x xs ih => simp [qsum, List.foldr_cons, List.sum_cons, ← ih]

/-- Worker settings, normalized to seconds, as set in `DerushWorker.__init__`.
The decibel thresholds of `detect_nonsilent` enter the behaviour only through
the comparison `min_threshold < rms < max_threshold` with
`rms = sqrt(meanSq)` and both thresholds positive (`10^(dB/20) > 0`), which is
equivalent to `min_threshold² < meanSq < max_threshold²`; the model therefore
carries the squared linear thresholds `tminSq`/`tmaxSq` as parameters. -/
structure Settings where
  min_silence_len : ℚ
  margin : ℚ
  tminSq : ℚ
  tmaxSq : ℚ
  min_segment_gap : ℚ

/-- Sizes of the sections produced by `np.array_split` of a length-`l` array
into `n` sections: the first `l % n` sections have `l / n + 1` elements, the
remaining ones `l / n`. -/
def splitSizes (l n : ℕ) : List ℕ :=
  List.replicate (l % n) (l / n + 1) ++ List.replicate (n - l % n) (l / n)

/-- Cut a list into consecutive chunks of the given sizes. -/
def chunksBySizes : List ℕ → List ℚ → List (List ℚ)
  | [], _ => []
  | k :: ks, xs => xs.take k :: chunksBySizes ks (xs.drop k)

/-- Model of `np.array_split(xs, n)` for `n > 0`. -/
def arraySplit (xs : List ℚ) (n : ℕ) : List (List ℚ) :=
  chunksBySizes (splitSizes xs.length n) xs

/-- Window size in samples: models `int(0.1 * sample_rate)` of
`detect_nonsilent` (equal to `sample_rate // 10` for all machine-integer
sample rates). -/
def windowSize (sample_rate : ℕ) : ℕ := sample_rate / 10

/-- The windows the classifier actually analyses:
`np.array_split(audio_array, len(audio_array) // window_size)`. -/
def windowsOf (audio : List ℚ) (sample_rate : ℕ) : List (List ℚ) :=
  arraySplit audio (audio.length / windowSize sample_rate)

/-- Modelled from the spec (§4.1 step 1, for comparison with `windowsOf`):
partition the buffer into consecutive, non-overlapping windows of exactly
`window_size` samples, dropping the final partial window. -/
def specWindows (audio : List ℚ) (sample_rate : ℕ) : List (List ℚ) :=
  let ws := windowSize sample_rate
  (List.range (audio.length / ws)).map (fun i => (audio.drop (i * ws)).take ws)

/-- Mean of squared samples of a window; `rms = sqrt(meanSq)` in the code. -/
def meanSq (w : List ℚ) : ℚ := qdivNat (qsum (w.map (fun x => qmul x x))) w.length

/-- Indices of the windows with acceptable energy
(`valid_windows = [i for i, r in enumerate(rms) if min_threshold < r < max_threshold]`,
expressed on squared amplitudes). -/
def validIdx (tminSq tmaxSq : ℚ) (wins : List (List ℚ)) : List ℕ :=
  (wins.enum.filter
    (fun p => decide (tminSq < meanSq p.2) && decide (meanSq p.2 < tmaxSq))).map
    Prod.fst

/-- The time `i * 0.1` (seconds) of window index `i`. -/
def winTime (i : ℕ) : ℚ := mkRat i 10

/-- The grouping loop of `detect_nonsilent` (lines 96-115): group consecutive
valid window indices into runs, emit the candidate range of each run.  The
accumulators are `start_i` and `prev_i`; the final run's end time is clamped
by `min(·, len(audio_array) / sample_rate)` (the earlier runs are not). -/
def groupRuns (S : Settings) (dur : ℚ) : ℕ → ℕ → List ℕ → List (ℚ × ℚ)
  | start_i, prev_i, [] =>
    let end_time := min (qadd (winTime (prev_i + 1)) S.margin) dur
    let start_time := max 0 (qsub (winTime start_i) S.margin)
    if S.min_silence_len ≤ qsub end_time start_time then [(start_time, end_time)]
    else []
  | start_i, prev_i, i :: rest =>
    if prev_i + 1 < i then
      let start_time := max 0 (qsub (winTime start_i) S.margin)
      let end_time := qadd (winTime (prev_i + 1)) S.margin
      (if S.min_silence_len ≤ qsub end_time start_time then [(start_time, end_time)]
       else []) ++ groupRuns S dur i i rest
    else groupRuns S dur start_i i rest

/-- Ordering of ranges by start time, the sort key of
`sorted(ranges, key=lambda x: x[0])`. -/
def startLE (a b : ℚ × ℚ) : Prop := a.1 ≤ b.1

instance : DecidableRel startLE := fun a b => inferInstanceAs (Decidable (a.1 ≤ b.1))

instance : IsTotal (ℚ × ℚ) startLE := ⟨fun a b => le_total a.1 b.1⟩

instance : IsTrans (ℚ × ℚ) startLE := ⟨fun _ _ _ => le_trans⟩

/-- The sweep loop of `merge_overlapping_ranges`: `cur` is the pair
`(current_start, current_end)`. -/
def mergeLoop (gap : ℚ) : ℚ × ℚ → List (ℚ × ℚ) → List (ℚ × ℚ)
  | cur, [] => [cur]
  | cur, r :: rest =>
    if r.1 ≤ qadd cur.2 gap then mergeLoop gap (cur.1, max cur.2 r.2) rest
    else cur :: mergeLoop gap r rest

/-- Model of `DerushWorker.merge_overlapping_ranges` (lines 52-74): stable
sort by start time, then a single sweep joining ranges whose start is within
`gap` of the current end. -/
def merge_overlapping_ranges (gap : ℚ) (ranges : List (ℚ × ℚ)) : List (ℚ × ℚ) :=
  match List.insertionSort startLE ranges with
  | [] => []
  | r :: rest => mergeLoop gap r rest

/-- Model of `DerushWorker.detect_nonsilent` (lines 76-118).  `none` models a
raised exception: `ZeroDivisionError` when `int(0.1 * sample_rate) = 0`, and
the `ValueError` of `np.array_split` when the requested number of sections
`len(audio_array) // window_size` is `0`. -/
def detect_nonsilent (S : Settings) (audio : List ℚ) (sample_rate : ℕ) :
    Option (List (ℚ × ℚ)) :=
  let ws := windowSize sample_rate
  if ws = 0 then none
  else if audio.length / ws = 0 then none
  else
    let wins := windowsOf audio sample_rate
    let dur : ℚ := mkRat audio.length sample_rate
    match validIdx S.tminSq S.tmaxSq wins with
    | [] => some []
    | i0 :: rest =>
      some (merge_overlapping_ranges S.min_segment_gap (groupRuns S dur i0 i0 rest))

/-- Errors raised by the pipeline, one constructor per distinct `raise` site:
`loadError` for failures while loading the video or extracting its audio,
`analysisError` for an exception inside `detect_nonsilent`, `noSegments` for
`ValueError("Aucun segment audio détecté avec ces paramètres")`,
`extractionFailed` for `RuntimeError` after a failed segment extraction,
`emptySegments` for `ValueError("Aucun segment à concaténer")`,
`missingSegments` for `FileNotFoundError` on missing segment files, and
`concatFailed` for `RuntimeError` after a failed concatenation. -/
inductive Err where
  | loadError
  | analysisError
  | noSegments
  | extractionFailed
  | emptySegments
  | missingSegments
  | concatFailed
  deriving DecidableEq, Repr

/-- Observable effects of a pipeline run, in order of occurrence. -/
inductive Event where
  | createWorkspace
  | loadVideo
  | extractAudio
  | analyze
  | extractSegment (i : ℕ)
  | writeManifest
  | ffmpegConcat
  | removeAudioAttempt (ok : Bool)
  | cleanupDirAttempt
  deriving DecidableEq, Repr

/-- Oracle environment for one `run`: outcomes of the external effects. -/
structure Env where
  loadOk : Bool
  audioData : List ℚ
  sampleRate : ℕ
  extractOk : ℕ → Bool
  fileExists : List Char → Bool
  concatOk : Bool
  tempAudioExists : Bool
  audioRemoveOk : Bool

/-- Model of `os.path.splitext` (CPython `genericpath._splitext` with
`sep = '/'` and `extsep = '.'`): split at the last dot when it lies after the
last path separator and the basename has a non-dot character strictly before
it; otherwise the extension is empty. -/
def splitext (p : List Char) : List Char × List Char :=
  let r := p.reverse
  let a := r.takeWhile (fun c => c != '.')
  match r.dropWhile (fun c => c != '.') with
  | [] => (p, [])
  | bh :: btail =>
    if a.contains '/' then (p, [])
    else if (btail.takeWhile (fun c => c != '/')).any (fun c => c != '.') then
      (btail.reverse, bh :: a.reverse)
    else (p, [])

/-- The fixed marker appended by `run`:
`output_path = os.path.splitext(self.video_path)[0] + '_derushed.mp4'`. -/
def derushSuffix : List Char := "_derushed.mp4".data

/-- The output path derived from the input path (line 238). -/
def outputPath (p : List Char) : List Char := (splitext p).1 ++ derushSuffix

/-- Name of a segment file, `f'segment_{i:04d}.mp4'` (line 223). -/
def segFileName (i : ℕ) : List Char :=
  "segment_".data ++
    (List.replicate (4 - (Nat.toDigits 10 i).length) '0' ++ Nat.toDigits 10 i) ++
    ".mp4".data

/-- Model of `DerushWorker.concat_segments_ffmpeg` (lines 142-175): raise on
an empty segment list, raise on missing files, otherwise write the manifest,
invoke the transcoder and return its success as a boolean. -/
def concat_segments_ffmpeg (fileExists : List Char → Bool) (concatOk : Bool)
    (segs : List (List Char)) : List Event × Except Err Bool :=
  if segs.isEmpty then ([], .error .emptySegments)
  else if segs.all fileExists then ([.writeManifest, .ffmpegConcat], .ok concatOk)
  else ([], .error .missingSegments)

/-- The per-range extraction loop of `run` (lines 217-235): extract segments
`0, 1, …` in order, stopping at the first extraction failure. -/
def extractLoop (ok : ℕ → Bool) : ℕ → ℕ → List Event × Bool
  | _, 0 => ([], true)
  | i, n + 1 =>
    if ok i then
      let r := extractLoop ok (i + 1) n
      (.extractSegment i :: r.1, r.2)
    else ([.extractSegment i], false)

/-- The `try` block of `DerushWorker.run` (lines 181-257).  Returns the event
trace, whether the intermediate audio file had been created by the time the
block ended (`temp_audio_path is not None`), and the outcome. -/
def tryBody (S : Settings) (env : Env) (path : List Char) :
    List Event × Bool × Except Err (List Char) :=
  if env.loadOk then
    match detect_nonsilent S env.audioData env.sampleRate with
    | none =>
      ([.createWorkspace, .loadVideo, .extractAudio, .analyze], true,
        .error .analysisError)
    | some ranges =>
      if ranges.isEmpty then
        ([.createWorkspace, .loadVideo, .extractAudio, .analyze], true,
          .error .noSegments)
      else
        let ex := extractLoop env.extractOk 0 ranges.length
        if ex.2 then
          let segs := (List.range ranges.length).map segFileName
          let con := concat_segments_ffmpeg env.fileExists env.concatOk segs
          match con.2 with
          | .error er =>
            ([.createWorkspace, .loadVideo, .extractAudio, .analyze] ++ ex.1 ++ con.1,
              true, .error er)
          | .ok b =>
            if b then
              (([.createWorkspace, .loadVideo, .extractAudio, .analyze] ++ ex.1 ++ con.1)
                ++ (if env.tempAudioExists then [.removeAudioAttempt env.audioRemoveOk]
                    else [])
                ++ [.cleanupDirAttempt],
                true, .ok (outputPath path))
            else
              ([.createWorkspace, .loadVideo, .extractAudio, .analyze] ++ ex.1 ++ con.1,
                true, .error .concatFailed)
        else
          ([.createWorkspace, .loadVideo, .extractAudio, .analyze] ++ ex.1, true,
            .error .extractionFailed)
  else ([.createWorkspace, .loadVideo], false, .error .loadError)

/-- The `except` block of `run` (lines 259-268): attempt to remove the
intermediate audio file if it was created and still exists, then clean the
workspace — both inside one inner `try`, so if the audio removal raises, the
workspace cleanup is skipped; the inner exception is only logged. -/
def exceptCleanup (env : Env) (audioCreated : Bool) : List Event :=
  if audioCreated && env.tempAudioExists then
    if env.audioRemoveOk then [.removeAudioAttempt true, .cleanupDirAttempt]
    else [.removeAudioAttempt false]
  else [.cleanupDirAttempt]

/-- Model of `DerushWorker.run`: execute the `try` block; on an exception,
run the cleanup of the `except` block and re-raise the original exception
(`raise e`). -/
def run (S : Settings) (env : Env) (path : List Char) :
    List Event × Except Err (List Char) :=
  match tryBody S env path with
  | (evs, _, .ok out) => (evs, .ok out)
  | (evs, ac, .error e) => (evs ++ exceptCleanup env ac, .error e)

/-- Two consecutive merged ranges are separated by more than `gap`:
`next.start > current.end + gap`. -/
def gapRel (gap : ℚ) (a b : ℚ × ℚ) : Prop := a.2 + gap < b.1

theorem mkRat_one_five : (mkRat 1 5 : ℚ) = 1 / 5 := by
  rw [mkRat_eq_div]; norm_num

theorem mergeLoop_head (gap : ℚ) (cur : ℚ × ℚ) (rest : List (ℚ × ℚ)) :
    ∃ e tl, mergeLoop gap cur rest = (cur.1, e) :: tl ∧ cur.2 ≤ e := by
  induction rest generalizing cur with
  | nil => exact ⟨cur.2, [], by simp [mergeLoop], le_refl _⟩
  | cons r rs ih =>
    by_cases h : r.1 ≤ cur.2 + gap
    · obtain ⟨e, tl, heq, hle⟩ := ih (cur.1, max cur.2 r.2)
      exact ⟨e, tl, by simpa [mergeLoop, h] using heq,
        le_trans (le_max_left _ _) hle⟩
    · exact ⟨cur.2, mergeLoop gap r rs, by simp [mergeLoop, h], le_refl _⟩

theorem mergeLoop_start_mem (gap : ℚ) (cur : ℚ × ℚ) (rest : List (ℚ × ℚ)) :
    ∀ x ∈ mergeLoop gap cur rest, x.1 = cur.1 ∨ ∃ r ∈ rest, x.1 = r.1 := by
  induction rest generalizing cur with
  | nil =>
    intro x hx
    simp [mergeLoop] at hx
    simp [hx]
  | cons r rs ih =>
    intro x hx
    by_cases h : r.1 ≤ cur.2 + gap
    · simp only [mergeLoop, qadd_eq, h, if_pos] at hx
      rcases ih (cur.1, max cur.2 r.2) x hx with h1 | ⟨s, hs, h2⟩
      · exact Or.inl h1
      · exact Or.inr ⟨s, List.mem_cons_of_mem _ hs, h2⟩
    · simp only [mergeLoop, qadd_eq, h, if_neg, not_false_iff, List.mem_cons] at hx
      rcases hx with rfl | hx
      · exact Or.inl rfl
      · rcases ih r x hx with h1 | ⟨s, hs, h2⟩
        · exact Or.inr ⟨r, List.mem_cons_self _ _, h1⟩
        · exact Or.inr ⟨s, List.mem_cons_of_mem _ hs, h2⟩

theorem mergeLoop_sorted_chain (gap : ℚ) (cur : ℚ × ℚ) (rest : List (ℚ × ℚ))
    (h : List.Pairwise startLE (cur :: rest)) :
    List.Pairwise startLE (mergeLoop gap cur rest) ∧
      List.Chain' (gapRel gap) (mergeLoop gap cur rest) := by
  induction rest generalizing cur with
  | nil => simp [mergeLoop]
  | cons r rs ih =>
    obtain ⟨hall, htail⟩ := List.pairwise_cons.mp h
    by_cases hc : r.1 ≤ cur.2 + gap
    · simp only [mergeLoop, qadd_eq, hc, if_pos]
      apply ih (cur.1, max cur.2 r.2)
      refine List.pairwise_cons.mpr ⟨?_, htail.of_cons⟩
      intro b hb
      exact hall b (List.mem_cons_of_mem _ hb)
    · simp only [mergeLoop, qadd_eq, hc, if_neg, not_false_iff]
      obtain ⟨pw, ch⟩ := ih r htail
      obtain ⟨e, tl, heq, _⟩ := mergeLoop_head gap r rs
      constructor
      · refine List.pairwise_cons.mpr ⟨?_, pw⟩
        intro x hx
        rcases mergeLoop_start_mem gap r rs x hx with h1 | ⟨s, hs, h2⟩
        · unfold startLE
          rw [h1]
          exact hall r (List.mem_cons_self _ _)
        · unfold startLE
          rw [h2]
          exact hall s (List.mem_cons_of_mem _ hs)
      · rw [heq] at ch ⊢
        refine List.Chain'.cons ?_ ch
        exact not_le.mp hc

theorem merge_sorted_chain (gap : ℚ) (ranges : List (ℚ × ℚ)) :
    List.Pairwise startLE (merge_overlapping_ranges gap ranges) ∧
      List.Chain' (gapRel gap) (merge_overlapping_ranges gap ranges) := by
  have hs : List.Sorted startLE (List.insertionSort startLE ranges) :=
    List.sorted_insertionSort startLE ranges
  rcases heq : List.insertionSort startLE ranges with _ | ⟨r, rest⟩
  · simp [merge_overlapping_ranges, heq]
  · rw [heq] at hs
    simpa [merge_overlapping_ranges, heq] using
      mergeLoop_sorted_chain gap r rest hs

theorem chain_pairwise_gap (gap : ℚ) (l : List (ℚ × ℚ))
    (hpw : List.Pairwise startLE l) (hch : List.Chain' (gapRel gap) l) :
    List.Pairwise (gapRel gap) l := by
  induction l with
  | nil => exact List.Pairwise.nil
  | cons a t ih =>
    obtain ⟨hall, htail⟩ := List.pairwise_cons.mp hpw
    refine List.pairwise_cons.mpr ⟨?_, ih htail hch.tail⟩
    intro b hb
    cases t with
    | nil => cases hb
    | cons c t2 =>
      have hac : gapRel gap a c := List.chain'_cons.mp hch |>.1
      rcases List.mem_cons.mp hb with rfl | hb2
      · exact hac
      · have hcb : startLE c b :=
          (List.pairwise_cons.mp htail).1 b hb2
        unfold gapRel at hac ⊢
        unfold startLE at hcb
        linarith

theorem mergeLoop_id (gap : ℚ) (cur : ℚ × ℚ) (rest : List (ℚ × ℚ))
    (h : List.Chain' (gapRel gap) (cur :: rest)) :
    mergeLoop gap cur rest = cur :: rest := by
  induction rest generalizing cur with
  | nil => simp [mergeLoop]
  | cons r rs ih =>
    have h1 : gapRel gap cur r := (List.chain'_cons.mp h).1
    have h2 : List.Chain' (gapRel gap) (r :: rs) := (List.chain'_cons.mp h).2
    have hn : ¬ r.1 ≤ cur.2 + gap := not_le.mpr h1
    simp [mergeLoop, hn, ih r h2]

theorem mergeLoop_wf (gap : ℚ) (cur : ℚ × ℚ) (rest : List (ℚ × ℚ))
    (hcur : 0 ≤ cur.1 ∧ cur.1 < cur.2)
    (hrest : ∀ r ∈ rest, 0 ≤ r.1 ∧ r.1 < r.2) :
    ∀ x ∈ mergeLoop gap cur rest, 0 ≤ x.1 ∧ x.1 < x.2 := by
  induction rest generalizing cur with
  | nil =>
    intro x hx
    simp [mergeLoop] at hx
    subst hx
    exact hcur
  | cons r rs ih =>
    intro x hx
    by_cases h : r.1 ≤ cur.2 + gap
    · simp only [mergeLoop, qadd_eq, h, if_pos] at hx
      refine ih (cur.1, max cur.2 r.2) ⟨hcur.1, lt_max_of_lt_left hcur.2⟩
        (fun s hs => hrest s (List.mem_cons_of_mem _ hs)) x hx
    · simp only [mergeLoop, qadd_eq, h, if_neg, not_false_iff, List.mem_cons] at hx
      rcases hx with rfl | hx
      · exact hcur
      · exact ih r (hrest r (List.mem_cons_self _ _))
          (fun s hs => hrest s (List.mem_cons_of_mem _ hs)) x hx

theorem merge_wf (gap : ℚ) (ranges : List (ℚ × ℚ))
    (h : ∀ r ∈ ranges, 0 ≤ r.1 ∧ r.1 < r.2) :
    ∀ x ∈ merge_overlapping_ranges gap ranges, 0 ≤ x.1 ∧ x.1 < x.2 := by
  have hmem : ∀ r ∈ List.insertionSort startLE ranges, 0 ≤ r.1 ∧ r.1 < r.2 :=
    fun r hr => h r ((List.mem_insertionSort startLE).mp hr)
  rcases heq : List.insertionSort startLE ranges with _ | ⟨r, rest⟩
  · simp [merge_overlapping_ranges, heq]
  · rw [heq] at hmem
    simp only [merge_overlapping_ranges, heq]
    exact mergeLoop_wf gap r rest (hmem r (List.mem_cons_self _ _))
      (fun s hs => hmem s (List.mem_cons_of_mem _ hs))

/-- C3: the output of `merge_overlapping_ranges` with the worker's
`min_segment_gap = 0.2 s = mkRat 1 5` is sorted ascending by start time,
consecutive output ranges satisfy `next.start > current.end + min_segment_gap`,
and consequently the output ranges (read as half-open intervals
`[start, end)`) are mutually disjoint. -/
theorem merge_output_sorted_disjoint (ranges : List (ℚ × ℚ)) :
    List.Pairwise startLE (merge_overlapping_ranges (mkRat 1 5) ranges) ∧
    List.Chain' (gapRel (mkRat 1 5)) (merge_overlapping_ranges (mkRat 1 5) ranges) ∧
    List.Pairwise (fun a b => ∀ x : ℚ, ¬ (a.1 ≤ x ∧ x < a.2 ∧ b.1 ≤ x ∧ x < b.2))
      (merge_overlapping_ranges (mkRat 1 5) ranges) := by
  obtain ⟨hpw, hch⟩ := merge_sorted_chain (mkRat 1 5) ranges
  refine ⟨hpw, hch, ?_⟩
  have hg := chain_pairwise_gap (mkRat 1 5) _ hpw hch
  refine hg.imp ?_
  intro a b hab
  rintro x ⟨hx1, hx2, hx3, hx4⟩
  unfold gapRel at hab
  have h5 : (0 : ℚ) ≤ mkRat 1 5 := by rw [mkRat_one_five]; norm_num
  linarith

/-- C4: the range merger is idempotent — applying
`merge_overlapping_ranges` to its own output returns the output unchanged. -/
theorem merge_idempotent (ranges : List (ℚ × ℚ)) :
    merge_overlapping_ranges (mkRat 1 5)
        (merge_overlapping_ranges (mkRat 1 5) ranges) =
      merge_overlapping_ranges (mkRat 1 5) ranges := by
  obtain ⟨hpw, hch⟩ := merge_sorted_chain (mkRat 1 5) ranges
  have hid : List.insertionSort startLE (merge_overlapping_ranges (mkRat 1 5) ranges) =
      merge_overlapping_ranges (mkRat 1 5) ranges :=
    List.Sorted.insertionSort_eq hpw
  rcases heq : merge_overlapping_ranges (mkRat 1 5) ranges with _ | ⟨r, rest⟩
  · rfl
  · rw [heq] at hid hch
    simp only [merge_overlapping_ranges, hid]
    exact mergeLoop_id _ r rest hch

/-- C5, counterexample: with the two input ranges `A1 = (5, 6)` and
`A2 = (0, 1)` the hypothesis `A2.start - A1.end = -6 ≤ 0.2` of the claim
holds, yet the merger returns the two ranges unchanged and no output range
covers both inputs. -/
theorem merge_two_ranges_cex :
    qsub (0 : ℚ) 6 ≤ mkRat 1 5 ∧
    merge_overlapping_ranges (mkRat 1 5) [(5, 6), (0, 1)] = [(0, 1), (5, 6)] ∧
    ¬ ∃ r ∈ merge_overlapping_ranges (mkRat 1 5) [((5 : ℚ), (6 : ℚ)), (0, 1)],
        (r.1 ≤ 0 ∧ 6 ≤ r.2) := by decide

/-- C5, amended: for two input ranges given in start order
(`A1.start ≤ A2.start`) with `A2.start - A1.end ≤ 0.2`, the merger returns
the single range `(A1.start, max A1.end A2.end)`, which covers both inputs. -/
theorem merge_two_close_ranges (A1 A2 : ℚ × ℚ) (hord : A1.1 ≤ A2.1)
    (hclose : qsub A2.1 A1.2 ≤ mkRat 1 5) :
    merge_overlapping_ranges (mkRat 1 5) [A1, A2] = [(A1.1, max A1.2 A2.2)] ∧
    (A1.1 ≤ A1.1 ∧ A1.1 ≤ A2.1) ∧
    (A1.2 ≤ max A1.2 A2.2 ∧ A2.2 ≤ max A1.2 A2.2) := by
  have hsorted : List.Sorted startLE [A1, A2] := by
    refine List.pairwise_cons.mpr ⟨?_, List.pairwise_singleton _ _⟩
    intro b hb
    rcases List.mem_singleton.mp hb with rfl
    exact hord
  have hsort : List.insertionSort startLE [A1, A2] = [A1, A2] :=
    List.Sorted.insertionSort_eq hsorted
  have hcond : A2.1 ≤ A1.2 + mkRat 1 5 := by
    rw [qsub_eq] at hclose
    linarith
  refine ⟨?_, ⟨le_refl _, hord⟩, le_max_left _ _, le_max_right _ _⟩
  simp only [merge_overlapping_ranges, hsort]
  simp [mergeLoop, hcond]

/-- Witness for `merge_two_close_ranges` at `A1 = (0, 1)`, `A2 = (1, 2)`. -/
theorem merge_two_close_ranges_witness :
    merge_overlapping_ranges (mkRat 1 5) [((0 : ℚ), (1 : ℚ)), (1, 2)] =
      [(((0 : ℚ), (1 : ℚ)).1, max ((0 : ℚ), (1 : ℚ)).2 ((1 : ℚ), (2 : ℚ)).2)] ∧
    (((0 : ℚ), (1 : ℚ)).1 ≤ ((0 : ℚ), (1 : ℚ)).1 ∧
      ((0 : ℚ), (1 : ℚ)).1 ≤ ((1 : ℚ), (2 : ℚ)).1) ∧
    (((0 : ℚ), (1 : ℚ)).2 ≤ max ((0 : ℚ), (1 : ℚ)).2 ((1 : ℚ), (2 : ℚ)).2 ∧
      ((1 : ℚ), (2 : ℚ)).2 ≤ max ((0 : ℚ), (1 : ℚ)).2 ((1 : ℚ), (2 : ℚ)).2) :=
  merge_two_close_ranges (0, 1) (1, 2) (by decide) (by decide)

/-- Sample settings used for concrete evaluations: `min_silence_len = 0.4 s`
and `margin = 0.6 s` (the constructor defaults `400 ms` / `600 ms`),
`min_segment_gap = 0.2 s`, and rational squared thresholds `1/2 < meanSq < 2`
chosen so that windows of samples `1` are valid and windows of samples `0`
are not. -/
def sampleSettings : Settings := ⟨mkRat 2 5, mkRat 3 5, mkRat 1 2, 2, mkRat 1 5⟩

theorem chunksBySizes_length (ks : List ℕ) (xs : List ℚ) :
    (chunksBySizes ks xs).length = ks.length := by
  induction ks generalizing xs with
  | nil => rfl
  | cons k ks ih => simp [chunksBySizes, ih]

theorem splitSizes_length (l n : ℕ) (hn : 0 < n) : (splitSizes l n).length = n := by
  have := Nat.mod_lt l hn
  simp [splitSizes]
  omega

theorem splitSizes_sum (l n : ℕ) (hn : 0 < n) : (splitSizes l n).sum = l := by
  have h1 : n * (l / n) + l % n = l := Nat.div_add_mod l n
  have h2 : l % n ≤ n := le_of_lt (Nat.mod_lt l hn)
  have h3 : (l % n) * (l / n) ≤ n * (l / n) := Nat.mul_le_mul_right _ h2
  simp only [splitSizes, List.sum_append, List.sum_replicate, smul_eq_mul]
  rw [Nat.mul_succ, Nat.sub_mul]
  omega

theorem chunksBySizes_flatten (ks : List ℕ) (xs : List ℚ) :
    (chunksBySizes ks xs).flatten = xs.take ks.sum := by
  induction ks generalizing xs with
  | nil => simp [chunksBySizes]
  | cons k ks ih =>
    simp only [chunksBySizes, List.flatten_cons, List.sum_cons, ih, List.take_add]

theorem chunksBySizes_mem_length (ks : List ℕ) (xs : List ℚ)
    (h : ks.sum ≤ xs.length) :
    ∀ w ∈ chunksBySizes ks xs, w.length ∈ ks := by
  induction ks generalizing xs with
  | nil => intro w hw; cases hw
  | cons k ks ih =>
    intro w hw
    simp only [List.sum_cons] at h
    rcases List.mem_cons.mp hw with rfl | hw2
    · simp only [List.length_take]
      have : k ≤ xs.length := le_trans (Nat.le_add_right _ _) h
      simp [Nat.min_eq_left this]
    · have : ks.sum ≤ (xs.drop k).length := by
        simp only [List.length_drop]
        omega
      exact List.mem_cons_of_mem _ (ih (xs.drop k) this w hw2)

/-- C1, counterexample: for the 5-sample buffer at sample rate 20 Hz
(`window_size = 2`), the classifier's windowing differs from the spec's
"exact 100 ms windows, final partial window dropped": `np.array_split`
yields sections `[[0,0,0],[0,0]]` (the first one 3 samples long) and no
sample of the buffer is dropped. -/
theorem classifier_windows_cex :
    windowsOf [0, 0, 0, 0, 0] 20 ≠ specWindows [0, 0, 0, 0, 0] 20 ∧
    windowsOf [0, 0, 0, 0, 0] 20 = [[0, 0, 0], [0, 0]] ∧
    specWindows [0, 0, 0, 0, 0] 20 = [[0, 0], [0, 0]] ∧
    (windowsOf [0, 0, 0, 0, 0] 20).flatten = [0, 0, 0, 0, 0] := by decide

/-- C1, amended: the classifier analyses the buffer as exactly
`len / window_size` consecutive sections produced by `np.array_split`; the
sections cover the entire buffer (no trailing samples are dropped), and each
section has `len / n` or `len / n + 1` samples (where `n = len / window_size`),
hence at least `window_size` samples — at least, not exactly, 100 ms. -/
theorem classifier_windows_amended (audio : List ℚ) (sr : ℕ)
    (hws : 0 < windowSize sr) (hn : 0 < audio.length / windowSize sr) :
    (windowsOf audio sr).length = audio.length / windowSize sr ∧
    (windowsOf audio sr).flatten = audio ∧
    ∀ w ∈ windowsOf audio sr,
      (w.length = audio.length / (audio.length / windowSize sr) ∨
        w.length = audio.length / (audio.length / windowSize sr) + 1) ∧
      windowSize sr ≤ w.length := by
  set l := audio.length with hl
  set n := audio.length / windowSize sr with hndef
  have hsum : (splitSizes l n).sum = l := splitSizes_sum l n hn
  refine ⟨?_, ?_, ?_⟩
  · rw [windowsOf, arraySplit, chunksBySizes_length, ← hl, splitSizes_length l n hn]
  · rw [windowsOf, arraySplit, chunksBySizes_flatten, ← hl, hsum, List.take_length]
  · intro w hw
    have hmem : w.length ∈ splitSizes l n := by
      refine chunksBySizes_mem_length (splitSizes l n) audio ?_ w ?_
      · rw [hsum, hl]
      · simpa [windowsOf, arraySplit, ← hl] using hw
    have hdisj : w.length = l / n + 1 ∨ w.length = l / n := by
      rcases List.mem_append.mp hmem with h | h
      · exact Or.inl (List.eq_of_mem_replicate h)
      · exact Or.inr (List.eq_of_mem_replicate h)
    have hge : windowSize sr ≤ l / n := by
      rw [Nat.le_div_iff_mul_le hn, Nat.mul_comm]
      exact Nat.div_mul_le_self l (windowSize sr)
    constructor
    · tauto
    · rcases hdisj with h | h <;> omega

/-- Witness for `classifier_windows_amended` at the buffer `[0,0,0,0,0]` and
sample rate 20 Hz. -/
theorem classifier_windows_amended_witness :
    0 < windowSize 20 ∧
    0 < ([(0 : ℚ), 0, 0, 0, 0].length / windowSize 20) ∧
    ((windowsOf [0, 0, 0, 0, 0] 20).length =
        [(0 : ℚ), 0, 0, 0, 0].length / windowSize 20 ∧
      (windowsOf [0, 0, 0, 0, 0] 20).flatten = [(0 : ℚ), 0, 0, 0, 0] ∧
      ∀ w ∈ windowsOf [0, 0, 0, 0, 0] 20,
        (w.length =
            [(0 : ℚ), 0, 0, 0, 0].length /
              ([(0 : ℚ), 0, 0, 0, 0].length / windowSize 20) ∨
          w.length =
            [(0 : ℚ), 0, 0, 0, 0].length /
              ([(0 : ℚ), 0, 0, 0, 0].length / windowSize 20) + 1) ∧
        windowSize 20 ≤ w.length) :=
  ⟨by decide, by decide,
    classifier_windows_amended [0, 0, 0, 0, 0] 20 (by decide) (by decide)⟩

/-- C10: a buffer shorter than one window makes `len // window_size = 0`, so
`np.array_split` raises (`none`) instead of classifying the buffer as
all-silent — `detect_nonsilent` does not return an empty range list. -/
theorem detect_short_buffer_raises (S : Settings) (audio : List ℚ) (sr : ℕ)
    (h : audio.length < windowSize sr) :
    detect_nonsilent S audio sr = none := by
  have hws : ¬ windowSize sr = 0 := by
    intro h0
    rw [h0] at h
    exact Nat.not_lt_zero _ h
  have hdiv : audio.length / windowSize sr = 0 := Nat.div_eq_of_lt h
  simp [detect_nonsilent, hws, hdiv]

/-- Witness for `detect_short_buffer_raises`: one sample at 20 Hz. -/
theorem detect_short_buffer_raises_witness :
    [(1 : ℚ)].length < windowSize 20 ∧
    detect_nonsilent sampleSettings [1] 20 = none :=
  ⟨by decide, detect_short_buffer_raises sampleSettings [1] 20 (by decide)⟩

theorem groupRuns_wf (S : Settings) (dur : ℚ) (hmsl : 0 < S.min_silence_len)
    (start_i prev_i : ℕ) (l : List ℕ) :
    ∀ x ∈ groupRuns S dur start_i prev_i l, 0 ≤ x.1 ∧ x.1 < x.2 := by
  induction l generalizing start_i prev_i with
  | nil =>
    intro x hx
    simp only [groupRuns] at hx
    split at hx
    case isTrue h =>
      rcases List.mem_singleton.mp hx with rfl
      rw [qsub_eq] at h
      constructor
      · exact le_max_left _ _
      · simp only
        linarith
    case isFalse h => cases hx
  | cons i rest ih =>
    intro x hx
    simp only [groupRuns] at hx
    split at hx
    · rcases List.mem_append.mp hx with h1 | h2
      · split at h1
        case isTrue h =>
          rcases List.mem_singleton.mp h1 with rfl
          rw [qsub_eq] at h
          constructor
          · exact le_max_left _ _
          · simp only
            linarith
        case isFalse h => cases h1
      · exact ih i i x h2
    · exact ih start_i i x hx

/-- C2, amended: provided the configured minimum segment length is positive
(the constructor default is 400 ms), every range returned by
`detect_nonsilent` satisfies `0 ≤ start` and `start < end`.  The
`end ≤ buffer_duration` part of the original claim is false: only the final
run's candidate end is clamped by `min(·, len(audio) / sample_rate)`, see
`detect_range_exceeds_duration_cex`. -/
theorem detect_ranges_wellformed (S : Settings) (audio : List ℚ) (sr : ℕ)
    (rs : List (ℚ × ℚ)) (hmsl : 0 < S.min_silence_len)
    (hdet : detect_nonsilent S audio sr = some rs) :
    ∀ r ∈ rs, 0 ≤ r.1 ∧ r.1 < r.2 := by
  simp only [detect_nonsilent] at hdet
  split at hdet
  · cases hdet
  · split at hdet
    · cases hdet
    · split at hdet
      case h_1 =>
        rcases Option.some.inj hdet with rfl
        intro r hr
        cases hr
      case h_2 i0 rest heq =>
        rcases Option.some.inj hdet with rfl
        exact merge_wf _ _
          (groupRuns_wf S (mkRat audio.length sr) hmsl i0 i0 rest)

/-- C2, counterexample: with the default margin (0.6 s) and minimum length
(0.4 s), the 3-sample buffer `[1, 0, 1]` at 10 Hz (duration 0.3 s) yields the
range `(0, 0.7)`: the first run's candidate end `(0+1)*0.1 + 0.6 = 0.7` is
not clamped to the buffer duration because it is not the last run. -/
theorem detect_range_exceeds_duration_cex :
    detect_nonsilent sampleSettings [1, 0, 1] 10 = some [(0, mkRat 7 10)] ∧
    mkRat ([(1 : ℚ), 0, 1].length) 10 = mkRat 3 10 ∧
    ¬ (mkRat 7 10 ≤ mkRat 3 10) := by decide

/-- Witness for `detect_ranges_wellformed` at `sampleSettings`, buffer
`[1, 0, 1]`, sample rate 10 Hz. -/
theorem detect_ranges_wellformed_witness :
    (0 : ℚ) < sampleSettings.min_silence_len ∧
    detect_nonsilent sampleSettings [1, 0, 1] 10 = some [((0 : ℚ), mkRat 7 10)] ∧
    ∀ r ∈ [((0 : ℚ), mkRat 7 10)], 0 ≤ r.1 ∧ r.1 < r.2 :=
  ⟨by decide, by decide,
    detect_ranges_wellformed sampleSettings [1, 0, 1] 10 _ (by decide) (by decide)⟩

theorem extractLoop_events (ok : ℕ → Bool) (i n : ℕ) :
    ∀ ev ∈ (extractLoop ok i n).1, ∃ j, ev = Event.extractSegment j := by
  induction n generalizing i with
  | zero => intro ev hev; cases hev
  | succ n ih =>
    intro ev hev
    by_cases h : ok i = true
    · simp only [extractLoop, h, if_pos] at hev
      rcases List.mem_cons.mp hev with rfl | hev2
      · exact ⟨i, rfl⟩
      · exact ih (i + 1) ev hev2
    · simp only [extractLoop, h, if_neg, not_false_iff] at hev
      rcases List.mem_singleton.mp hev with rfl
      exact ⟨i, rfl⟩

theorem concat_error_trace (fe : List Char → Bool) (ok : Bool)
    (segs : List (List Char)) (er : Err)
    (h : (concat_segments_ffmpeg fe ok segs).2 = .error er) :
    (concat_segments_ffmpeg fe ok segs).1 = [] := by
  by_cases h1 : segs.isEmpty <;> by_cases h2 : segs.all fe <;>
    simp [concat_segments_ffmpeg, h1, h2] at h ⊢

theorem concat_trace_cases (fe : List Char → Bool) (ok : Bool)
    (segs : List (List Char)) :
    (concat_segments_ffmpeg fe ok segs).1 = [] ∨
      (concat_segments_ffmpeg fe ok segs).1 =
        [Event.writeManifest, Event.ffmpegConcat] := by
  by_cases h1 : segs.isEmpty <;> by_cases h2 : segs.all fe <;>
    simp [concat_segments_ffmpeg, h1, h2]

theorem tryBody_error_events (S : Settings) (env : Env) (path : List Char)
    (evs : List Event) (ac : Bool) (e : Err)
    (h : tryBody S env path = (evs, ac, Except.error e)) :
    (e = .extractionFailed →
      Event.writeManifest ∉ evs ∧ Event.ffmpegConcat ∉ evs) ∧
    Event.cleanupDirAttempt ∉ evs ∧
    ∀ b, Event.removeAudioAttempt b ∉ evs := by
  simp only [tryBody] at h
  split at h
  · split at h
    · -- detect raised
      simp only [Prod.mk.injEq, Except.error.injEq] at h
      obtain ⟨h1, _, h3⟩ := h
      subst h1; subst h3
      refine ⟨?_, by decide, by decide⟩
      intro he; cases he
    · split at h
      · -- zero ranges
        simp only [Prod.mk.injEq, Except.error.injEq] at h
        obtain ⟨h1, _, h3⟩ := h
        subst h1; subst h3
        refine ⟨?_, by decide, by decide⟩
        intro he; cases he
      · split at h
        · -- extraction loop succeeded
          split at h
          · -- concatenation raised
            rename_i heq
            simp only [Prod.mk.injEq, Except.error.injEq] at h
            obtain ⟨h1, _, h3⟩ := h
            subst h1; subst h3
            have htr := concat_error_trace _ _ _ _ heq
            rw [htr]
            refine ⟨?_, ?_, ?_⟩
            · intro _
              constructor <;>
                · intro hmem
                  rcases List.mem_append.mp hmem with hm | hm
                  · rcases List.mem_append.mp hm with hm2 | hm2
                    · simp at hm2
                    · obtain ⟨j, hj⟩ := extractLoop_events _ _ _ _ hm2
                      cases hj
                  · cases hm
            · intro hmem
              rcases List.mem_append.mp hmem with hm | hm
              · rcases List.mem_append.mp hm with hm2 | hm2
                · simp at hm2
                · obtain ⟨j, hj⟩ := extractLoop_events _ _ _ _ hm2
                  cases hj
              · cases hm
            · intro b hmem
              rcases List.mem_append.mp hmem with hm | hm
              · rcases List.mem_append.mp hm with hm2 | hm2
                · simp at hm2
                · obtain ⟨j, hj⟩ := extractLoop_events _ _ _ _ hm2
                  cases hj
              · cases hm
          · -- transcoder returned failure on concatenation
            split at h
            · cases h
            · simp only [Prod.mk.injEq, Except.error.injEq] at h
              obtain ⟨h1, _, h3⟩ := h
              subst h1; subst h3
              refine ⟨?_, ?_, ?_⟩
              · intro he; cases he
              · intro hmem
                rcases List.mem_append.mp hmem with hm | hm
                · rcases List.mem_append.mp hm with hm2 | hm2
                  · simp at hm2
                  · obtain ⟨j, hj⟩ := extractLoop_events _ _ _ _ hm2
                    cases hj
                · rcases concat_trace_cases env.fileExists env.concatOk _ with hc | hc <;>
                    rw [hc] at hm <;> simp at hm
              · intro b hmem
                rcases List.mem_append.mp hmem with hm | hm
                · rcases List.mem_append.mp hm with hm2 | hm2
                  · simp at hm2
                  · obtain ⟨j, hj⟩ := extractLoop_events _ _ _ _ hm2
                    cases hj
                · rcases concat_trace_cases env.fileExists env.concatOk _ with hc | hc <;>
                    rw [hc] at hm <;> simp at hm
        · -- extraction failed
          simp only [Prod.mk.injEq, Except.error.injEq] at h
          obtain ⟨h1, _, h3⟩ := h
          subst h1; subst h3
          refine ⟨?_, ?_, ?_⟩
          · intro _
            constructor <;>
              · intro hmem
                rcases List.mem_append.mp hmem with hm | hm
                · simp at hm
                · obtain ⟨j, hj⟩ := extractLoop_events _ _ _ _ hm
                  cases hj
          · intro hmem
            rcases List.mem_append.mp hmem with hm | hm
            · simp at hm
            · obtain ⟨j, hj⟩ := extractLoop_events _ _ _ _ hm
              cases hj
          · intro b hmem
            rcases List.mem_append.mp hmem with hm | hm
            · simp at hm
            · obtain ⟨j, hj⟩ := extractLoop_events _ _ _ _ hm
              cases hj
  · -- loading the video failed
    simp only [Prod.mk.injEq, Except.error.injEq] at h
    obtain ⟨h1, _, h3⟩ := h
    subst h1; subst h3
    refine ⟨?_, by decide, by decide⟩
    intro he; cases he

theorem exceptCleanup_only (env : Env) (ac : Bool) :
    ∀ ev ∈ exceptCleanup env ac,
      (∃ b, ev = Event.removeAudioAttempt b) ∨ ev = Event.cleanupDirAttempt := by
  intro ev hev
  unfold exceptCleanup at hev
  split at hev
  · split at hev
    · rcases List.mem_cons.mp hev with rfl | hev2
      · exact Or.inl ⟨true, rfl⟩
      · rcases List.mem_singleton.mp hev2 with rfl
        exact Or.inr rfl
    · rcases List.mem_singleton.mp hev with rfl
      exact Or.inl ⟨false, rfl⟩
  · rcases List.mem_singleton.mp hev with rfl
    exact Or.inr rfl

theorem tryBody_ok_output (S : Settings) (env : Env) (path : List Char)
    (evs : List Event) (ac : Bool) (out : List Char)
    (h : tryBody S env path = (evs, ac, Except.ok out)) : out = outputPath path := by
  simp only [tryBody] at h
  split at h
  · split at h
    · simp at h
    · split at h
      · simp at h
      · split at h
        · split at h
          · simp at h
          · split at h
            · simp only [Prod.mk.injEq, Except.ok.injEq] at h
              exact h.2.2.symm
            · simp at h
        · simp at h
  · simp at h

/-- C6, amended: whenever the `try` block of `run` fails with some exception
`e`, `run` fails with exactly that `e` (for every outcome of the cleanup —
a cleanup failure never replaces or masks the original error); if the failure
is an extraction failure the concatenator is never invoked; the removal of
the intermediate audio file is attempted whenever that file was created and
still exists, and the workspace removal is attempted afterwards — except
that if the audio-file removal itself raises, the workspace removal is
skipped (see `run_cleanup_skip_cex`). -/
theorem run_error_cleanup (S : Settings) (env : Env) (path : List Char) (e : Err)
    (h : (run S env path).2 = .error e) :
    (tryBody S env path).2.2 = .error e ∧
    (e = .extractionFailed →
      Event.writeManifest ∉ (run S env path).1 ∧
        Event.ffmpegConcat ∉ (run S env path).1) ∧
    ((tryBody S env path).2.1 = true ∧ env.tempAudioExists = true →
      Event.removeAudioAttempt env.audioRemoveOk ∈ (run S env path).1) ∧
    ((tryBody S env path).2.1 = true ∧ env.tempAudioExists = true ∧
        env.audioRemoveOk = false →
      Event.cleanupDirAttempt ∉ (run S env path).1) ∧
    (¬ ((tryBody S env path).2.1 = true ∧ env.tempAudioExists = true) ∨
        env.audioRemoveOk = true →
      Event.cleanupDirAttempt ∈ (run S env path).1) := by
  rcases ht : tryBody S env path with ⟨evs, ac, res⟩
  cases res with
  | ok out =>
    rw [run, ht] at h
    simp at h
  | error e2 =>
    have hrun : run S env path = (evs ++ exceptCleanup env ac, .error e2) := by
      rw [run, ht]
    rw [hrun] at h
    simp only [Except.error.injEq] at h
    subst h
    obtain ⟨hman, hclean, hrm⟩ := tryBody_error_events S env path evs ac e2 ht
    rw [hrun]
    refine ⟨rfl, ?_, ?_, ?_, ?_⟩
    · intro he
      obtain ⟨hm1, hm2⟩ := hman he
      constructor <;>
        · intro hmem
          rcases List.mem_append.mp hmem with hm | hm
          · first
              | exact hm1 hm
              | exact hm2 hm
          · rcases exceptCleanup_only env ac _ hm with ⟨b, hb⟩ | hb <;> cases hb
    · rintro ⟨rfl, hex⟩
      refine List.mem_append.mpr (Or.inr ?_)
      simp only [exceptCleanup, hex, Bool.and_true]
      cases henv : env.audioRemoveOk <;> simp
    · rintro ⟨rfl, hex, hrm0⟩
      intro hmem
      rcases List.mem_append.mp hmem with hm | hm
      · exact hclean hm
      · simp only [exceptCleanup, hex, hrm0, Bool.and_true] at hm
        simp at hm
    · intro hor
      refine List.mem_append.mpr (Or.inr ?_)
      rcases hor with hne | hok
      · have hfalse : (ac && env.tempAudioExists) = false := by
          rcases hac : ac <;> rcases hex : env.tempAudioExists <;> simp_all
        simp [exceptCleanup, hfalse]
      · rcases hand : (ac && env.tempAudioExists) <;>
          simp [exceptCleanup, hand, hok]

/-- C6, counterexample: extraction fails, and the removal of the
intermediate audio file itself raises (`audioRemoveOk = false`): the
workspace cleanup is then not attempted at all, refuting the claim that
removal of both the audio file and the workspace is attempted on every
exception.  The original extraction error still propagates unchanged. -/
theorem run_cleanup_skip_cex :
    (run sampleSettings
        ⟨true, [1, 0, 1], 10, fun _ => false, fun _ => true, true, true, false⟩
        "v.mp4".data) =
      ([.createWorkspace, .loadVideo, .extractAudio, .analyze, .extractSegment 0,
          .removeAudioAttempt false], .error .extractionFailed) ∧
    Event.cleanupDirAttempt ∉
      (run sampleSettings
        ⟨true, [1, 0, 1], 10, fun _ => false, fun _ => true, true, true, false⟩
        "v.mp4".data).1 := by decide

/-- Witness for `run_error_cleanup` at an environment where the first
segment extraction fails. -/
theorem run_error_cleanup_witness :
    ((run sampleSettings
        ⟨true, [1, 0, 1], 10, fun _ => false, fun _ => true, true, true, false⟩
        "v.mp4".data).2 = .error .extractionFailed) ∧
    ((tryBody sampleSettings
        ⟨true, [1, 0, 1], 10, fun _ => false, fun _ => true, true, true, false⟩
        "v.mp4".data).2.2 = .error .extractionFailed ∧
      (Err.extractionFailed = .extractionFailed →
        Event.writeManifest ∉
          (run sampleSettings
            ⟨true, [1, 0, 1], 10, fun _ => false, fun _ => true, true, true, false⟩
            "v.mp4".data).1 ∧
        Event.ffmpegConcat ∉
          (run sampleSettings
            ⟨true, [1, 0, 1], 10, fun _ => false, fun _ => true, true, true, false⟩
            "v.mp4".data).1) ∧
      ((tryBody sampleSettings
          ⟨true, [1, 0, 1], 10, fun _ => false, fun _ => true, true, true, false⟩
          "v.mp4".data).2.1 = true ∧ true = true →
        Event.removeAudioAttempt false ∈
          (run sampleSettings
            ⟨true, [1, 0, 1], 10, fun _ => false, fun _ => true, true, true, false⟩
            "v.mp4".data).1) ∧
      ((tryBody sampleSettings
          ⟨true, [1, 0, 1], 10, fun _ => false, fun _ => true, true, true, false⟩
          "v.mp4".data).2.1 = true ∧ true = true ∧ false = false →
        Event.cleanupDirAttempt ∉
          (run sampleSettings
            ⟨true, [1, 0, 1], 10, fun _ => false, fun _ => true, true, true, false⟩
            "v.mp4".data).1) ∧
      (¬ ((tryBody sampleSettings
            ⟨true, [1, 0, 1], 10, fun _ => false, fun _ => true, true, true, false⟩
            "v.mp4".data).2.1 = true ∧ true = true) ∨ false = true →
        Event.cleanupDirAttempt ∈
          (run sampleSettings
            ⟨true, [1, 0, 1], 10, fun _ => false, fun _ => true, true, true, false⟩
            "v.mp4".data).1)) :=
  ⟨by decide,
    run_error_cleanup sampleSettings
      ⟨true, [1, 0, 1], 10, fun _ => false, fun _ => true, true, true, false⟩
      "v.mp4".data .extractionFailed (by decide)⟩

/-- C7: when the classifier yields zero active ranges, `run` fails with the
distinct "no segments detected" error
(`ValueError("Aucun segment audio détecté avec ces paramètres")`) and never
invokes the segment extractor or the concatenator. -/
theorem run_zero_ranges (S : Settings) (env : Env) (path : List Char)
    (hload : env.loadOk = true)
    (hdet : detect_nonsilent S env.audioData env.sampleRate = some []) :
    (run S env path).2 = .error .noSegments ∧
    (∀ i, Event.extractSegment i ∉ (run S env path).1) ∧
    Event.writeManifest ∉ (run S env path).1 ∧
    Event.ffmpegConcat ∉ (run S env path).1 := by
  have hbody : tryBody S env path =
      ([.createWorkspace, .loadVideo, .extractAudio, .analyze], true,
        .error .noSegments) := by
    simp [tryBody, hload, hdet]
  have hrun : run S env path =
      ([.createWorkspace, .loadVideo, .extractAudio, .analyze] ++
          exceptCleanup env true, .error .noSegments) := by
    rw [run, hbody]
  rw [hrun]
  refine ⟨rfl, ?_, ?_, ?_⟩
  · intro i hmem
    rcases List.mem_append.mp hmem with hm | hm
    · simp at hm
    · rcases exceptCleanup_only env true _ hm with ⟨b, hb⟩ | hb <;> cases hb
  · intro hmem
    rcases List.mem_append.mp hmem with hm | hm
    · simp at hm
    · rcases exceptCleanup_only env true _ hm with ⟨b, hb⟩ | hb <;> cases hb
  · intro hmem
    rcases List.mem_append.mp hmem with hm | hm
    · simp at hm
    · rcases exceptCleanup_only env true _ hm with ⟨b, hb⟩ | hb <;> cases hb

/-- Witness for `run_zero_ranges`: an all-silent one-sample buffer at 10 Hz,
for which the classifier returns `some []`. -/
theorem run_zero_ranges_witness :
    (⟨true, [0], 10, fun _ => true, fun _ => true, true, true, true⟩ : Env).loadOk
        = true ∧
    detect_nonsilent sampleSettings
        (⟨true, [0], 10, fun _ => true, fun _ => true, true, true, true⟩ : Env).audioData
        (⟨true, [0], 10, fun _ => true, fun _ => true, true, true, true⟩ : Env).sampleRate
        = some [] ∧
    ((run sampleSettings
        ⟨true, [0], 10, fun _ => true, fun _ => true, true, true, true⟩
        "v.mp4".data).2 = .error .noSegments ∧
      (∀ i, Event.extractSegment i ∉
        (run sampleSettings
          ⟨true, [0], 10, fun _ => true, fun _ => true, true, true, true⟩
          "v.mp4".data).1) ∧
      Event.writeManifest ∉
        (run sampleSettings
          ⟨true, [0], 10, fun _ => true, fun _ => true, true, true, true⟩
          "v.mp4".data).1 ∧
      Event.ffmpegConcat ∉
        (run sampleSettings
          ⟨true, [0], 10, fun _ => true, fun _ => true, true, true, true⟩
          "v.mp4".data).1) :=
  ⟨rfl, by decide,
    run_zero_ranges sampleSettings
      ⟨true, [0], 10, fun _ => true, fun _ => true, true, true, true⟩
      "v.mp4".data rfl (by decide)⟩

/-- C8: given an empty segment list, `concat_segments_ffmpeg` raises the
distinct contract-violation error
(`ValueError("Aucun segment à concaténer")`) with an empty event trace —
no manifest file is written and no subprocess is invoked — and this error is
distinguishable from the "no active ranges" analysis error. -/
theorem concat_empty_contract (fe : List Char → Bool) (ok : Bool) :
    concat_segments_ffmpeg fe ok [] = ([], .error .emptySegments) ∧
    Err.emptySegments ≠ Err.noSegments :=
  ⟨rfl, by decide⟩

theorem dropWhile_head_false {α : Type} (p : α → Bool) (l : List α) (x : α)
    (xs : List α) (h : l.dropWhile p = x :: xs) : p x = false := by
  induction l with
  | nil => cases h
  | cons a t ih =>
    rw [List.dropWhile_cons] at h
    split at h
    · exact ih h
    · rename_i hpa
      injection h with h1 _
      subst h1
      simpa using hpa

theorem splitext_recompose (p : List Char) :
    (splitext p).1 ++ (splitext p).2 = p := by
  rcases heq : p.reverse.dropWhile (fun c => c != '.') with _ | ⟨bh, btail⟩
  · simp [splitext, heq]
  · simp only [splitext, heq]
    split
    · simp
    · split
      · have hsplit : p.reverse.takeWhile (fun c => c != '.') ++
            p.reverse.dropWhile (fun c => c != '.') = p.reverse :=
          List.takeWhile_append_dropWhile _ _
        rw [heq] at hsplit
        simp only
        conv_rhs => rw [← List.reverse_reverse p, ← hsplit]
        simp [List.reverse_append]
      · simp

theorem splitext_ext_no_sep (p : List Char) :
    ∀ c ∈ (splitext p).2, c ≠ '/' := by
  rcases heq : p.reverse.dropWhile (fun c => c != '.') with _ | ⟨bh, btail⟩
  · simp [splitext, heq]
  · simp only [splitext, heq]
    split
    · simp
    · split
      · intro c hc
        simp only at hc
        rcases List.mem_cons.mp hc with rfl | hc2
        · have hbh := dropWhile_head_false (fun c => c != '.') p.reverse c btail heq
          simp only [bne_eq_false_iff_eq] at hbh
          subst hbh
          decide
        · rename_i hcon _
          intro hslash
          subst hslash
          exact hcon (by simpa using List.mem_reverse.mp hc2)
      · simp

/-- C9, amended: the output path of every successful `run` is obtained
deterministically from the input path by dropping the input's extension (as
split off by `os.path.splitext`) and appending the fixed suffix
`_derushed.mp4`; since the dropped extension contains no path separator, the
output lies in the same directory as the input.  The input's own extension is
replaced by `.mp4`, not preserved (see `run_output_path_cex`). -/
theorem run_output_derivation (S : Settings) (env : Env) (path : List Char)
    (out : List Char) (h : (run S env path).2 = .ok out) :
    out = (splitext path).1 ++ derushSuffix ∧
    (splitext path).1 ++ (splitext path).2 = path ∧
    ∀ c ∈ (splitext path).2, c ≠ '/' := by
  rcases ht : tryBody S env path with ⟨evs, ac, res⟩
  cases res with
  | error e =>
    rw [run, ht] at h
    simp at h
  | ok o =>
    have ho : o = outputPath path := tryBody_ok_output S env path evs ac o ht
    rw [run, ht] at h
    simp only [Except.ok.injEq] at h
    subst h
    exact ⟨ho, splitext_recompose path, splitext_ext_no_sep path⟩

/-- C9, counterexample: for the input path `a.mkv` the successful run
produces `a_derushed.mp4` — the fixed suffix and a fixed `.mp4` extension —
and not `a_derushed.mkv`, so the input's extension is not preserved after
the suffix. -/
theorem run_output_path_cex :
    (run sampleSettings
        ⟨true, [1, 0, 1], 10, fun _ => true, fun _ => true, true, true, true⟩
        "a.mkv".data).2 = .ok "a_derushed.mp4".data ∧
    "a_derushed.mp4".data ≠ ("a_derushed" ++ ".mkv").data := by decide

/-- Witness for `run_output_derivation` at a successful environment with
input path `v.mp4`. -/
theorem run_output_derivation_witness :
    ((run sampleSettings
        ⟨true, [1, 0, 1], 10, fun _ => true, fun _ => true, true, true, true⟩
        "v.mp4".data).2 = .ok "v_derushed.mp4".data) ∧
    ("v_derushed.mp4".data = (splitext "v.mp4".data).1 ++ derushSuffix ∧
      (splitext "v.mp4".data).1 ++ (splitext "v.mp4".data).2 = "v.mp4".data ∧
      ∀ c ∈ (splitext "v.mp4".data).2, c ≠ '/') :=
  ⟨by decide,
    run_output_derivation sampleSettings
      ⟨true, [1, 0, 1], 10, fun _ => true, fun _ => true, true, true, true⟩
      "v.mp4".data "v_derushed.mp4".data (by decide)⟩

end Derusher
